import Mathlib

/-!
Verification of the SmartNoteParser core (src/parser.py, src/analyzer.py)
against its natural-language specification.

Strings are modelled as lists of characters (`Str`).  Each Python regex
used by the source is embedded as a left-to-right scan reproducing
`re.findall` semantics for that pattern: at every position a step
function tries to match the pattern against the suffix (greedy
quantifiers, with the pattern's backtracking behaviour resolved
explicitly); on success the captured group is emitted and scanning
resumes after the match (matches never overlap), otherwise the scan
advances one character.  Numbers that Python computes with floats are
modelled by exact rationals.
-/

/-- Character strings, modelled as lists of characters. -/
abbrev Str := List Char

/-- Python `str` whitespace / regex `\s` for the ASCII range
(space, tab, newline, carriage return, vertical tab, form feed). -/
def isPyWS (c : Char) : Bool :=
  c = ' ' || c = '\t' || c = '\n' || c = '\r' || c = '\x0b' || c = '\x0c'

/-- Regex word character `\w` for the ASCII range: letter, digit or underscore.
(The source runs Python 3 `re` on ASCII note text; only ASCII is modelled.) -/
def isWordChar (c : Char) : Bool :=
  c.isAlpha || c.isDigit || c = '_'

/-- Lowercasing of a string, modelling Python `str.lower()` on ASCII text. -/
def lowerStr (s : Str) : Str := s.map Char.toLower

/-- Python `str.strip()`: remove leading and trailing whitespace. -/
def stripWS (s : Str) : Str :=
  ((s.dropWhile isPyWS).reverse.dropWhile isPyWS).reverse

/-- Generic model of the `re.findall` scan loop.  `step s` attempts to
match the pattern at the start of the suffix `s`, returning the captured
group together with the total length of the match.  `skip` counts
characters still covered by the previous match: scanning resumes only
after them (non-overlapping matches).  On a failed attempt the scan
advances one character. -/
def reScan (step : Str → Option (Str × Nat)) : Nat → Str → List Str
  | _, [] => []
  | k + 1, _ :: r => reScan step k r
  | 0, c :: r =>
    match step (c :: r) with
    | some (g, len) => g :: reScan step (len - 1) r
    | none => reScan step 0 r

/-- Variant of `reScan` for patterns with lookbehind assertions: the step
function also receives the reversed prefix of characters before the
current position. -/
def reScanCtx (step : Str → Str → Option (Str × Nat)) :
    Nat → Str → Str → List Str
  | _, _, [] => []
  | k + 1, pre, c :: r => reScanCtx step k (c :: pre) r
  | 0, pre, c :: r =>
    match step pre (c :: r) with
    | some (g, len) => g :: reScanCtx step (len - 1) (c :: pre) r
    | none => reScanCtx step 0 (c :: pre) r

/-- Match attempt for `\w+`: a maximal nonempty run of word characters. -/
def wordRunStep (s : Str) : Option (Str × Nat) :=
  match s with
  | [] => none
  | c :: r =>
    if isWordChar c then
      let run := c :: r.takeWhile isWordChar
      some (run, run.length)
    else none

/-- All matches of `\w+` (equivalently `\b\w+\b`): the maximal runs of
word characters, as used by `analyze_readability` and
`analyze_sentiment_indicators`. -/
def wordRuns (s : Str) : List Str := reScan wordRunStep 0 s

/-- Match attempt for one piece of Python `str.split()`: a maximal
nonempty run of non-whitespace characters. -/
def splitWSStep (s : Str) : Option (Str × Nat) :=
  match s with
  | [] => none
  | c :: r =>
    if isPyWS c then none
    else
      let run := c :: r.takeWhile (fun ch => !isPyWS ch)
      some (run, run.length)

/-- Python `str.split()` with no separator: the maximal runs of
non-whitespace characters (empty pieces are never produced). -/
def splitWS (s : Str) : List Str := reScan splitWSStep 0 s

/-! ## TextAnalyzer (src/analyzer.py) -/

/-- The class-level stop-word set `TextAnalyzer.STOP_WORDS`, transcribed
from the source (the source set literal lists `'her'` twice; a set keeps
one copy). -/
def STOP_WORDS : List Str :=
  ["the", "a", "an", "and", "or", "but", "in", "on", "at", "to", "for",
   "of", "with", "by", "as", "is", "are", "was", "were", "be", "been",
   "have", "has", "had", "do", "does", "did", "will", "would", "could",
   "should", "may", "might", "can", "must", "this", "that", "these",
   "those", "i", "you", "he", "she", "it", "we", "they", "me", "him",
   "her", "us", "them", "my", "your", "his", "its", "our", "their",
   "myself", "yourself", "himself", "herself", "itself", "ourselves",
   "yourselves", "themselves"].map String.toList

/-- Match attempt for `\b[a-zA-Z]{m,}\b` at one position.  `pre` is the
reversed prefix before the position (for the leading `\b`).  The run of
letters is taken greedily; since every letter is a word character the
trailing `\b` can only hold at the end of the full run, so backtracking
inside the run never succeeds and the match requires a non-word character
(or the end of input) right after the maximal letter run. -/
def alphaTokenStep (minLen : Nat) (pre s : Str) : Option (Str × Nat) :=
  match s with
  | [] => none
  | c :: r =>
    if c.isAlpha && (match pre with | [] => true | p :: _ => !isWordChar p) then
      let run := c :: r.takeWhile Char.isAlpha
      let rest := r.dropWhile Char.isAlpha
      if minLen ≤ run.length &&
          (match rest with | [] => true | d :: _ => !isWordChar d) then
        some (run, run.length)
      else none
    else none

/-- The tokenizer of `analyze_word_frequency`:
`re.findall(r'\b[a-zA-Z]{%d,}\b' % min_length, content.lower())`. -/
def freqTokens (content : Str) (minLen : Nat) : List Str :=
  reScanCtx (alphaTokenStep minLen) 0 [] (lowerStr content)

/-- The words counted by `analyze_word_frequency`: the tokens, with stop
words removed unless `include_stop_words` is set. -/
def freqWords (content : Str) (minLen : Nat) (includeStop : Bool) : List Str :=
  if includeStop then freqTokens content minLen
  else (freqTokens content minLen).filter (fun w => decide (w ∉ STOP_WORDS))

/-- One step of building a `collections.Counter` from a stream: a key
already present has its count bumped in place, a new key is appended.
The association list keeps keys in first-insertion order, as Python
dicts (and hence `Counter`) do. -/
def tallyStep [DecidableEq α] (acc : List (α × Nat)) (w : α) : List (α × Nat) :=
  if acc.any (fun p => p.1 = w) then
    acc.map (fun p => if p.1 = w then (p.1, p.2 + 1) else p)
  else acc ++ [(w, 1)]

/-- Model of `collections.Counter(l)` as an insertion-ordered association list. -/
def tally [DecidableEq α] (l : List α) : List (α × Nat) :=
  l.foldl tallyStep []

/-- Insert into a list sorted by `le`, before the first element it is
`le`-related to. -/
def insertLe (le : α → α → Bool) (x : α) : List α → List α
  | [] => [x]
  | y :: ys => if le x y then x :: y :: ys else y :: insertLe le x ys

/-- Sort by `le` (insertion sort). -/
def isortLe (le : α → α → Bool) (l : List α) : List α :=
  l.foldr (insertLe le) []

/-- Comparison used to model `Counter.most_common`: descending by count;
on equal counts, ascending by position in the counter, which is the
first-insertion order.  (`most_common` is documented and implemented as
equivalent to a stable descending sort by count; sorting the enumerated
entries lexicographically by (count descending, position ascending) is
that stable sort.) -/
def mcLe (a b : Nat × α × Nat) : Bool :=
  decide (b.2.2 < a.2.2) || (decide (a.2.2 = b.2.2) && decide (a.1 ≤ b.1))

/-- Model of `Counter.most_common(n)`: the `n` entries with the largest counts, in
descending count order, ties in first-insertion order. -/
def mostCommon (n : Nat) (counts : List (α × Nat)) : List (α × Nat) :=
  ((isortLe mcLe counts.enum).take n).map Prod.snd

/-- Embedding of `TextAnalyzer.analyze_word_frequency(content, min_length, top_n)`
with the instance attribute `include_stop_words` passed explicitly. -/
def analyze_word_frequency (content : Str) (minLen topN : Nat)
    (includeStop : Bool) : List (Str × Nat) :=
  mostCommon topN (tally (freqWords content minLen includeStop))

/-- Python `' '.join(ws)`. -/
def joinSpace : List Str → Str
  | [] => []
  | [w] => w
  | w :: ws => w ++ ' ' :: joinSpace ws

/-- The cleaning substitution of `find_key_phrases`:
`re.sub(r'[^\w\s]', ' ', content.lower())` — every character that is
neither a word character nor whitespace becomes a space. -/
def cleanContent (content : Str) : Str :=
  (lowerStr content).map (fun c => if !isWordChar c && !isPyWS c then ' ' else c)

/-- The words `find_key_phrases` builds its n-grams from: the cleaned
content split on whitespace, keeping words outside the stop-word set of
length at least 3. -/
def phraseWords (content : Str) : List Str :=
  (splitWS (cleanContent content)).filter
    (fun w => decide (w ∉ STOP_WORDS) && decide (3 ≤ w.length))

/-- All n-gram phrases generated by `find_key_phrases`: for each n from
`min_words` to `max_words`, every contiguous window of n words, joined
by single spaces, in the source's loop order. -/
def ngramPhrases (words : List Str) (minWords maxWords : Nat) : List Str :=
  (List.range' minWords (maxWords + 1 - minWords)).flatMap fun n =>
    (List.range (words.length + 1 - n)).map fun i =>
      joinSpace ((words.drop i).take n)

/-- Embedding of `TextAnalyzer.find_key_phrases(content, min_words, max_words, top_n)`. -/
def find_key_phrases (content : Str) (minWords maxWords topN : Nat) :
    List (Str × Nat) :=
  mostCommon topN (tally (ngramPhrases (phraseWords content) minWords maxWords))

/-- Vowels of the syllable heuristic (`vowels = 'aeiouy'`). -/
def isVowel (c : Char) : Bool :=
  c = 'a' || c = 'e' || c = 'i' || c = 'o' || c = 'u' || c = 'y'

/-- The vowel-group counting loop of `_count_syllables`: `prev` is the
`prev_was_vowel` flag, a vowel following a non-vowel starts a group. -/
def vowelGroups (prev : Bool) : Str → Nat
  | [] => 0
  | c :: r =>
    (if isVowel c && !prev then 1 else 0) + vowelGroups (isVowel c) r

/-- Embedding of `TextAnalyzer._count_syllables(word)`: words of length at most 3 get
one syllable; otherwise count vowel groups, subtract one for a trailing
`e`, and floor the result at 1. -/
def count_syllables (word : Str) : Int :=
  let w := lowerStr word
  if w.length ≤ 3 then 1
  else
    max 1 ((vowelGroups false w : Int) -
      (if w.getLast? = some 'e' then 1 else 0))

/-- Match attempt for `[^.!?]+`: a maximal nonempty run of
non-sentence-terminator characters. -/
def sentencePieceStep (s : Str) : Option (Str × Nat) :=
  match s with
  | [] => none
  | c :: r =>
    if c = '.' || c = '!' || c = '?' then none
    else
      let run := c :: r.takeWhile (fun ch => !(ch = '.' || ch = '!' || ch = '?'))
      some (run, run.length)

/-- The sentence list of `analyze_readability`:
`re.split(r'[.!?]+', content)` followed by
`[s.strip() for s in sentences if s.strip()]`.  The pieces `re.split`
returns are the maximal runs of non-terminator characters plus empty
strings, and the comprehension drops exactly the empty and
whitespace-only pieces, so the result is the stripped nonempty runs. -/
def readabilitySentences (content : Str) : List Str :=
  ((reScan sentencePieceStep 0 content).map stripWS).filter (fun s => !s.isEmpty)

/-- Rounding to `d` decimal digits over `ℚ`, modelling Python `round`
(up to the float/rational distinction; no claim depends on a rounding). -/
def roundDec (d : Nat) (q : ℚ) : ℚ :=
  (round (q * (10 ^ d : ℚ)) : ℚ) / (10 ^ d : ℚ)

/-- Embedding of `TextAnalyzer.analyze_readability(content)`, returning the Python
dict as an ordered list of (key, value) pairs.  When there are no
sentences or no words the guard returns the literal four-entry record of
the source (which has no `syllables` and no `flesch_reading_ease` key). -/
def analyze_readability (content : Str) : List (String × ℚ) :=
  let sentences := readabilitySentences content
  let words := wordRuns content
  let syllables : Int := (words.map count_syllables).sum
  if sentences.isEmpty || words.isEmpty then
    [("sentences", 0), ("words", 0),
     ("avg_words_per_sentence", 0), ("avg_syllables_per_word", 0)]
  else
    let avgWords : ℚ := (words.length : ℚ) / (sentences.length : ℚ)
    let avgSyll : ℚ := (syllables : ℚ) / (words.length : ℚ)
    let flesch : ℚ := (206835 / 1000 : ℚ) - (1015 / 1000 : ℚ) * avgWords -
      (846 / 10 : ℚ) * avgSyll
    let fleschClamped : ℚ := max 0 (min 100 flesch)
    [("sentences", (sentences.length : ℚ)), ("words", (words.length : ℚ)),
     ("syllables", (syllables : ℚ)),
     ("avg_words_per_sentence", roundDec 2 avgWords),
     ("avg_syllables_per_word", roundDec 2 avgSyll),
     ("flesch_reading_ease", roundDec 1 fleschClamped)]

/-- The positive lexicon of `analyze_sentiment_indicators`. -/
def positiveWords : List Str :=
  ["good", "great", "excellent", "amazing", "wonderful", "fantastic",
   "awesome", "love", "like", "enjoy", "happy", "pleased", "satisfied",
   "excited", "success", "successful", "achievement", "accomplish",
   "complete", "done"].map String.toList

/-- The negative lexicon of `analyze_sentiment_indicators`. -/
def negativeWords : List Str :=
  ["bad", "terrible", "awful", "horrible", "hate", "dislike", "angry",
   "upset", "frustrated", "annoyed", "disappointed", "fail", "failure",
   "problem", "issue", "bug", "error", "broken", "difficult", "hard",
   "challenging"].map String.toList

/-- The urgency lexicon of `analyze_sentiment_indicators`. -/
def urgentWords : List Str :=
  ["urgent", "asap", "immediately", "critical", "important", "priority",
   "deadline", "due", "emergency", "fix", "resolve", "address"].map String.toList

/-- Embedding of `TextAnalyzer.analyze_sentiment_indicators(content)`: occurrence
counts of the three lexicons over `re.findall(r'\b\w+\b', content.lower())`. -/
def analyze_sentiment_indicators (content : Str) : Nat × Nat × Nat :=
  let words := wordRuns (lowerStr content)
  (words.countP (fun w => decide (w ∈ positiveWords)),
   words.countP (fun w => decide (w ∈ negativeWords)),
   words.countP (fun w => decide (w ∈ urgentWords)))

/-- The `analysis` record assembled by
`TextAnalyzer.generate_text_insights(content)`. -/
structure Insights where
  top_words : List (Str × Nat)
  key_phrases : List (Str × Nat)
  readability : List (String × ℚ)
  sentiment_indicators : Nat × Nat × Nat
deriving DecidableEq, Repr

/-- Embedding of `TextAnalyzer.generate_text_insights(content)`: word frequency with
`top_n=15`, key phrases with `top_n=8` (and the source defaults
`min_words=2`, `max_words=4`, `min_length=3`), readability and sentiment
indicators. -/
def generate_text_insights (content : Str) : Insights :=
  { top_words := analyze_word_frequency content 3 15 false
    key_phrases := find_key_phrases content 2 4 8
    readability := analyze_readability content
    sentiment_indicators := analyze_sentiment_indicators content }

/-! ## NoteParser (src/parser.py) -/

/-- Match attempt for the hashtag pattern of `_parse_markdown`:
`(?<!^)(?<!^#)(?<!^##)(?<!^###)(?<!^####)(?<!^#####)(?<!^######)#(\w+)`
with `re.MULTILINE`.  `pre` is the reversed prefix before the current
position; the seven negative lookbehinds reject the position exactly
when, for some k from 0 to 6, the k characters right before it are all
`#` and are preceded by a line start (start of input or a newline). -/
def mdTagExcluded (pre : Str) : Bool :=
  (List.range 7).any fun k =>
    ((pre.take k).all (fun c => c = '#')) &&
      (match pre.drop k with | [] => true | d :: _ => d = '\n')

/-- Match attempt for the markdown hashtag rule at one position: a `#`
not rejected by the lookbehinds, followed by a nonempty run of word
characters (the captured group). -/
def mdTagStep (pre s : Str) : Option (Str × Nat) :=
  match s with
  | [] => none
  | c :: r =>
    if c = '#' && !mdTagExcluded pre then
      match r.takeWhile isWordChar with
      | [] => none
      | w => some (w, w.length + 1)
    else none

/-- The hashtag matches of `_parse_markdown` (before `set()` is applied). -/
def mdTagMatches (content : Str) : List Str :=
  reScanCtx mdTagStep 0 [] content

/-- Match attempt for `#(\w+)` (the plain-text hashtag rule, no
lookbehind). -/
def textTagStep (s : Str) : Option (Str × Nat) :=
  match s with
  | [] => none
  | c :: r =>
    if c = '#' then
      match r.takeWhile isWordChar with
      | [] => none
      | w => some (w, w.length + 1)
    else none

/-- The hashtag matches of `_parse_text` (before `set()` is applied). -/
def textTagMatches (content : Str) : List Str :=
  reScan textTagStep 0 content

/-- Match attempt for `@(\w+)`: an `@` followed by a nonempty run of word
characters (the captured group). -/
def mentionStep (s : Str) : Option (Str × Nat) :=
  match s with
  | [] => none
  | c :: r =>
    if c = '@' then
      match r.takeWhile isWordChar with
      | [] => none
      | w => some (w, w.length + 1)
    else none

/-- The `@`-mention matches of `_parse_markdown`. -/
def mentionMatches (content : Str) : List Str :=
  reScan mentionStep 0 content

/-- Match attempt for `\[([^\]]+)\]`: a `[`, then a nonempty run of
non-`]` characters (the captured group, which may span newlines), then
the first following `]`. -/
def bracketStep (s : Str) : Option (Str × Nat) :=
  match s with
  | [] => none
  | c :: r =>
    if c = '[' then
      match r.takeWhile (fun ch => !(ch = ']')) with
      | [] => none
      | w =>
        match r.dropWhile (fun ch => !(ch = ']')) with
        | [] => none
        | _ :: _ => some (w, w.length + 2)
    else none

/-- The bracket-keyword matches of `_parse_markdown`. -/
def bracketMatches (content : Str) : List Str :=
  reScan bracketStep 0 content

/-- Match attempt for a pattern made of a literal piece followed by
`(.+)`: the literal, then a nonempty greedy run of non-newline
characters (the captured group).  Used for the three checkbox todo
patterns `- \[ \] (.+)`, `- \[x\] (.+)` and `\* \[ \] (.+)`. -/
def litThenRestStep (pat : Str) (s : Str) : Option (Str × Nat) :=
  if s.take pat.length = pat then
    match (s.drop pat.length).takeWhile (fun ch => !(ch = '\n')) with
    | [] => none
    | g => some (g, pat.length + g.length)
  else none

/-- The matches of one checkbox todo pattern over the document. -/
def checkboxMatches (pat : Str) (content : Str) : List Str :=
  reScan (litThenRestStep pat) 0 content

/-- The backtracking tail of the TODO pattern, `\s*(.+)` with no
MULTILINE/DOTALL flags: `\s*` greedily takes the whitespace run (which
may contain newlines) and gives characters back until `(.+)` can match
at least one non-newline character.  If a non-whitespace character
follows the run it is not a newline and `(.+)` greedily captures up to
the end of that line; otherwise the match succeeds only if the
whitespace run contains a non-newline character, and the last such
character (everything after it being newlines) becomes the whole group.
Returns the group and the number of characters consumed. -/
def todoTail (s : Str) : Option (Str × Nat) :=
  let w := s.takeWhile isPyWS
  match s.dropWhile isPyWS with
  | [] =>
    match w.reverse.dropWhile (fun ch => ch = '\n') with
    | [] => none
    | ch :: before => some ([ch], before.length + 1)
  | c :: r =>
    let g := c :: r.takeWhile (fun ch => !(ch = '\n'))
    some (g, w.length + g.length)

/-- Match attempt for `TODO:?\s*(.+)` with `re.IGNORECASE`: a
case-insensitive `TODO`, then an optional colon (preferred when
present), then the `\s*(.+)` tail.  When taking the colon leaves
`\s*(.+)` nothing to match, the regex backtracks over `:?` and the colon
itself starts the group. -/
def todoStep (s : Str) : Option (Str × Nat) :=
  if lowerStr (s.take 4) = ("todo".toList) then
    match s.drop 4 with
    | ':' :: a =>
      match todoTail a with
      | some (g, n) => some (g, 5 + n)
      | none =>
        match todoTail (s.drop 4) with
        | some (g, n) => some (g, 4 + n)
        | none => none
    | a =>
      match todoTail a with
      | some (g, n) => some (g, 4 + n)
      | none => none
  else none

/-- The matches of the TODO prefix rule
`re.findall(r'TODO:?\s*(.+)', content, re.IGNORECASE)`, shared by
`_parse_markdown` and `_parse_text`. -/
def todoMatches (content : Str) : List Str :=
  reScan todoStep 0 content

/-- The structured record `_parse_markdown` returns.  The `headers` list
(markdown header extraction) is omitted: no claim concerns it.  The
Python `set`-valued fields `tags` and `keywords` are modelled as
duplicate-free lists; `set` iteration order is arbitrary in Python, and
only membership and duplicate-freeness are ever claimed of them. -/
structure MarkdownRecord where
  tags : List Str
  keywords : List Str
  todos : List Str
  content : Str
deriving DecidableEq, Repr

/-- Embedding of `NoteParser._parse_markdown(content)`: hashtags (header-aware rule),
keywords = `@`-mentions plus bracket terms pooled into one set, and
todos = the three checkbox patterns plus the TODO prefix rule, with
`list(set(todos))` collapsing duplicate todo texts. -/
def parse_markdown (content : Str) : MarkdownRecord :=
  { tags := (mdTagMatches content).dedup
    keywords := (mentionMatches content ++ bracketMatches content).dedup
    todos :=
      (checkboxMatches ("- [ ] ".toList) content ++
       checkboxMatches ("- [x] ".toList) content ++
       checkboxMatches ("* [ ] ".toList) content ++
       todoMatches content).dedup
    content := content }

/-- The structured record `_parse_text` returns.  Unlike the markdown
path, `todos` is the raw match list: `_parse_text` applies no `set()`
to it. -/
structure TextRecord where
  tags : List Str
  todos : List Str
  content : Str
deriving DecidableEq, Repr

/-- Embedding of `NoteParser._parse_text(content)`: hashtags with no header
exception, and the TODO prefix rule (its matches kept as returned). -/
def parse_text (content : Str) : TextRecord :=
  { tags := (textTagMatches content).dedup
    todos := todoMatches content
    content := content }

/-- Document format, as detected from the file extension by
`_detect_format`. -/
inductive NoteFormat where
  | markdown : NoteFormat
  | text : NoteFormat
deriving DecidableEq, Repr

/-- Either structured record. -/
inductive ParsedRecord where
  | md : MarkdownRecord → ParsedRecord
  | txt : TextRecord → ParsedRecord
deriving DecidableEq, Repr

/-- The content handling of `NoteParser.parse_file` once the file is
read (the path checks and encoding fallback are I/O collaborators):
empty or whitespace-only content is rejected with
`ValueError("File is empty: ...")`, otherwise the format's extraction
runs.  The error is modelled without the file path. -/
def parse_content (fmt : NoteFormat) (content : Str) : Except String ParsedRecord :=
  if (stripWS content).isEmpty then .error "File is empty"
  else
    match fmt with
    | .markdown => .ok (.md (parse_markdown content))
    | .text => .ok (.txt (parse_text content))

/-- Embedding of `NoteParser.analyze_content(parsed_data)`, as a function of the
`content` field of the parsed record: empty content returns the empty
dict `{}` (modelled as `none`) — it does not raise — and any other
content returns the full insights record. -/
def analyze_content (content : Str) : Option Insights :=
  if content.isEmpty then none
  else some (generate_text_insights content)

/-- Whether some position of `s` starts a case-insensitive occurrence of
`TODO` (the literal that can begin a match of the TODO prefix rule). -/
def hasTodoSub : Str → Bool
  | [] => false
  | c :: r =>
    decide (lowerStr ((c :: r).take 4) = ("todo".toList)) || hasTodoSub r

/-- Claim C8's formula for the syllable estimate, written independently
of the source's loop: the transitions are counted positionally by
pairing every character with its predecessor's vowel status (the first
character having none). -/
def specCountSyllables (word : Str) : Int :=
  let w := lowerStr word
  let transitions := (w.zip (false :: w.map isVowel)).countP
    (fun p => isVowel p.1 && !p.2)
  if w.length ≤ 3 then 1
  else max 1 ((transitions : Int) - (if w.getLast? = some 'e' then 1 else 0))

/-- Claim C7's tokenization, amended to what the `\b` boundaries enforce:
the maximal word-character runs of the lowercased content that consist
only of letters and have length at least the minimum.  (A letter run
adjacent to a digit or underscore sits inside a longer word run and is
rejected by the word boundaries.) -/
def specFreqTokens (content : Str) (minLen : Nat) : List Str :=
  (wordRuns (lowerStr content)).filter
    (fun r => r.all Char.isAlpha && decide (minLen ≤ r.length))

/-- Position of a word in the counter built from the token stream: since
the counter keeps keys in first-insertion order, this is the rank of the
word's first occurrence among distinct qualifying words. -/
def firstSeenRank (toks : List Str) (w : Str) : Nat :=
  (tally toks).findIdx (fun p => decide (p.1 = w))

/-! ## Sanity checks of the embeddings against the source semantics -/

example : splitWS ("  a b   cc ".toList) = [['a'], ['b'], ['c', 'c']] := by decide

example : wordRuns ("ab1_c-de!".toList) = [['a','b','1','_','c'], ['d','e']] := by decide

example : stripWS ("  a b ".toList) = ['a', ' ', 'b'] := by decide

example :
    analyze_word_frequency ("The cat saw the cat and the dog".toList) 3 2 false =
      [("cat".toList, 2), ("saw".toList, 1)] := by decide

example : freqTokens ("note2self".toList) 3 = [] := by decide

example :
    analyze_word_frequency ("bb aa aa bb cc dd cc".toList) 2 3 false =
      [("bb".toList, 2), ("aa".toList, 2), ("cc".toList, 2)] := by decide

example :
    find_key_phrases ("Deep work: deep work wins!".toList) 2 2 10 =
      [("deep work".toList, 2), ("work deep".toList, 1), ("work wins".toList, 1)] := by
  decide

example : count_syllables ("cat".toList) = 1 := by decide

example : count_syllables ("hello".toList) = 2 := by decide

example : count_syllables ("tape".toList) = 1 := by decide

example :
    analyze_readability ("".toList) =
      [("sentences", 0), ("words", 0),
       ("avg_words_per_sentence", 0), ("avg_syllables_per_word", 0)] := by decide

example :
    analyze_sentiment_indicators ("This is great but the bug is urgent".toList) =
      (1, 1, 1) := by decide

example : mdTagMatches ("#tag".toList) = [] := by decide

example : mdTagMatches ("#######tag".toList) = [] := by decide

example : mdTagMatches ("########tag".toList) = [("tag".toList)] := by decide

example : mdTagMatches ("a #tag x##tag".toList) = [("tag".toList), ("tag".toList)] := by decide

example : textTagMatches ("#tag b #a#b".toList) =
  [("tag".toList), ['a'], ['b']] := by decide

example : bracketMatches ("- [x] task".toList) = [['x']] := by decide

example : bracketMatches ("- [ ] t".toList) = [[' ']] := by decide

example : bracketMatches ("[a\n- [x] task".toList) = [("a\n- [x".toList)] := by decide

example : bracketMatches ("[] empty".toList) = [] := by decide

example : checkboxMatches ("- [x] ".toList) ("a\n- [x] Pay rent".toList) =
  [("Pay rent".toList)] := by decide

example : todoMatches ("mastodon".toList) = [['n']] := by decide

example : todoMatches ("mastodon rocks".toList) = [("n rocks".toList)] := by decide

example : todoMatches ("FIXME: broken".toList) = [] := by decide

example : todoMatches ("NOTE: remember".toList) = [] := by decide

example : todoMatches ("TODO:".toList) = [[':']] := by decide

example : todoMatches ("TODO".toList) = [] := by decide

example : todoMatches ("TODO:  \n".toList) = [[' ']] := by decide

example : todoMatches ("TODO:\n\nhi".toList) = [("hi".toList)] := by decide

example : todoMatches ("see TODO: fix bug".toList) = [("fix bug".toList)] := by decide

example : todoMatches ("TODO: a\nTODO: a".toList) = [['a'], ['a']] := by decide

example : todoMatches ("tOdO:: x".toList) = [(": x".toList)] := by decide

example : parse_content .text ("  \n ".toList) = .error "File is empty" := rfl

example : (parse_text ("Buy milk\n- [ ] Call Bob\n- [x] Pay rent".toList)).todos = [] := by
  decide

/-! ## Generic facts about the findall scan -/

theorem reScan_nil (step : Str → Option (Str × Nat)) (k : Nat) :
    reScan step k [] = [] := by
  cases k <;> rfl

theorem reScan_succ (step : Str → Option (Str × Nat)) (k : Nat) (c : Char)
    (r : Str) : reScan step (k + 1) (c :: r) = reScan step k r := rfl

theorem reScan_cons_none {step : Str → Option (Str × Nat)} {c : Char} {r : Str}
    (h : step (c :: r) = none) :
    reScan step 0 (c :: r) = reScan step 0 r := by
  simp [reScan, h]

theorem reScan_cons_some {step : Str → Option (Str × Nat)} {c : Char} {r g : Str}
    {n : Nat} (h : step (c :: r) = some (g, n)) :
    reScan step 0 (c :: r) = g :: reScan step (n - 1) r := by
  simp [reScan, h]

theorem reScan_skip (step : Str → Option (Str × Nat)) :
    ∀ (t rest : Str), reScan step t.length (t ++ rest) = reScan step 0 rest := by
  intro t
  induction t with
  | nil => intro rest; rfl
  | cons c t ih => intro rest; simpa [reScan_succ] using ih rest

theorem reScan_all_skipped (step : Str → Option (Str × Nat)) :
    ∀ (s : Str) (k : Nat), s.length ≤ k → reScan step k s = [] := by
  intro s
  induction s with
  | nil => intro k _; exact reScan_nil step k
  | cons c r ih =>
    intro k hk
    match k, hk with
    | k + 1, hk => simpa [reScan_succ] using ih k (by simpa using hk)

theorem reScan_append_of_no_match (step : Str → Option (Str × Nat)) :
    ∀ (p rest : Str), (∀ i, i < p.length → step ((p ++ rest).drop i) = none) →
      reScan step 0 (p ++ rest) = reScan step 0 rest := by
  intro p
  induction p with
  | nil => intro rest _; rfl
  | cons c p ih =>
    intro rest h
    have h0 : step (c :: (p ++ rest)) = none := by
      simpa using h 0 (by simp)
    rw [List.cons_append, reScan_cons_none h0]
    exact ih rest (fun i hi => by simpa using h (i + 1) (by simpa using hi))

theorem mem_reScan {step : Str → Option (Str × Nat)} {t : Str} :
    ∀ (s : Str) (k : Nat), t ∈ reScan step k s →
      ∃ u, u.IsSuffix s ∧ ∃ n, step u = some (t, n) := by
  intro s
  induction s with
  | nil => intro k h; rw [reScan_nil] at h; cases h
  | cons c r ih =>
    intro k h
    match k with
    | k + 1 =>
      rw [reScan_succ] at h
      obtain ⟨u, hu, hn⟩ := ih k h
      exact ⟨u, hu.trans (List.suffix_cons c r), hn⟩
    | 0 =>
      cases hs : step (c :: r) with
      | none =>
        rw [reScan_cons_none hs] at h
        obtain ⟨u, hu, hn⟩ := ih 0 h
        exact ⟨u, hu.trans (List.suffix_cons c r), hn⟩
      | some gn =>
        obtain ⟨g, n⟩ := gn
        rw [reScan_cons_some hs] at h
        rcases List.mem_cons.mp h with h | h
        · exact ⟨c :: r, List.suffix_rfl, n, by rw [hs, h]⟩
        · obtain ⟨u, hu, hn⟩ := ih _ h
          exact ⟨u, hu.trans (List.suffix_cons c r), hn⟩

theorem reScanCtx_nil (step : Str → Str → Option (Str × Nat)) (k : Nat)
    (pre : Str) : reScanCtx step k pre [] = [] := by
  cases k <;> rfl

theorem reScanCtx_succ (step : Str → Str → Option (Str × Nat)) (k : Nat)
    (pre : Str) (c : Char) (r : Str) :
    reScanCtx step (k + 1) pre (c :: r) = reScanCtx step k (c :: pre) r := rfl

theorem reScanCtx_cons_none {step : Str → Str → Option (Str × Nat)} {pre : Str}
    {c : Char} {r : Str} (h : step pre (c :: r) = none) :
    reScanCtx step 0 pre (c :: r) = reScanCtx step 0 (c :: pre) r := by
  simp [reScanCtx, h]

theorem reScanCtx_cons_some {step : Str → Str → Option (Str × Nat)} {pre : Str}
    {c : Char} {r g : Str} {n : Nat} (h : step pre (c :: r) = some (g, n)) :
    reScanCtx step 0 pre (c :: r) = g :: reScanCtx step (n - 1) (c :: pre) r := by
  simp [reScanCtx, h]

theorem reScanCtx_skip (step : Str → Str → Option (Str × Nat)) :
    ∀ (t pre rest : Str),
      reScanCtx step t.length pre (t ++ rest) =
        reScanCtx step 0 (t.reverse ++ pre) rest := by
  intro t
  induction t with
  | nil => intro pre rest; rfl
  | cons c t ih =>
    intro pre rest
    rw [List.cons_append, List.length_cons, reScanCtx_succ, ih]
    simp

theorem reScanCtx_all_skipped (step : Str → Str → Option (Str × Nat)) :
    ∀ (s : Str) (k : Nat) (pre : Str), s.length ≤ k →
      reScanCtx step k pre s = [] := by
  intro s
  induction s with
  | nil => intro k pre _; exact reScanCtx_nil step k pre
  | cons c r ih =>
    intro k pre hk
    match k, hk with
    | k + 1, hk =>
      rw [reScanCtx_succ]
      exact ih k (c :: pre) (by simpa using hk)

/-! ## Facts about the analyzer -/

theorem vowelGroups_eq_zip :
    ∀ (l : Str) (b : Bool),
      vowelGroups b l =
        (l.zip (b :: l.map isVowel)).countP (fun p => isVowel p.1 && !p.2) := by
  intro l
  induction l with
  | nil => intro b; rfl
  | cons c r ih =>
    intro b
    simp only [vowelGroups, List.map_cons, List.zip_cons_cons, List.countP_cons,
      ih (isVowel c)]
    cases hb : isVowel c && !b <;> simp [hb]
    omega

/-- Claim C8: for every word, the syllable estimate is exactly 1 for
words of length at most 3, and otherwise the number of
non-vowel-to-vowel transitions (vowel set a,e,i,o,u,y,
case-insensitive), minus 1 if the word ends in `e`, floored at 1; in
particular "cat" gives 1, "hello" gives 2 and "tape" gives 1. -/
theorem C8_syllable_estimate :
    (∀ w : Str, count_syllables w = specCountSyllables w) ∧
    count_syllables ("cat".toList) = 1 ∧
    count_syllables ("hello".toList) = 2 ∧
    count_syllables ("tape".toList) = 1 := by
  refine ⟨fun w => ?_, by decide, by decide, by decide⟩
  simp only [count_syllables, specCountSyllables, vowelGroups_eq_zip]

theorem wordRuns_eq_nil_of_no_word {s : Str}
    (h : ∀ c ∈ s, isWordChar c = false) : wordRuns s = [] := by
  induction s with
  | nil => rfl
  | cons c r ih =>
    have hc : isWordChar c = false := h c (by simp)
    have hstep : wordRunStep (c :: r) = none := by simp [wordRunStep, hc]
    unfold wordRuns
    rw [reScan_cons_none hstep]
    exact ih (fun d hd => h d (by simp [hd]))

/-- Claim C5 (amended): for every input with no word characters — in
particular zero words, which subsumes zero sentences, and in particular
empty content — `analyze_readability` returns its guard record without
raising; the guard record carries zero values for the sentence count,
the word count and both averages, but omits the syllable-count and
Flesch-score fields. -/
theorem C5_readability_zero_guard (content : Str)
    (h : ∀ ch ∈ content, isWordChar ch = false) :
    analyze_readability content =
      [("sentences", 0), ("words", 0),
       ("avg_words_per_sentence", 0), ("avg_syllables_per_word", 0)] := by
  have hw : wordRuns content = [] := wordRuns_eq_nil_of_no_word h
  simp [analyze_readability, hw]

/-- Witness for C5: the guard record on a concrete whitespace-and-
punctuation document. -/
theorem C5_readability_zero_guard_witness :
    analyze_readability ("?!. ".toList) =
      [("sentences", 0), ("words", 0),
       ("avg_words_per_sentence", 0), ("avg_syllables_per_word", 0)] :=
  C5_readability_zero_guard ("?!. ".toList) (by decide)

/-- Counterexample to claim C5 as stated: on empty content the
readability record does not contain the syllable-count field nor the
Flesch-reading-ease field at all, so not every field of the readability
record is present with value zero. -/
theorem C5_readability_zero_guard_counterexample :
    "syllables" ∉ (analyze_readability ([] : Str)).map Prod.fst ∧
    "flesch_reading_ease" ∉ (analyze_readability ([] : Str)).map Prod.fst := by
  exact ⟨by decide, by decide⟩

/-- Counterexample to claim C6 as stated: a text-format document whose
TODO rule matches the same text twice keeps the duplicate, because
`_parse_text` does not apply `set()` to its todo list. -/
theorem C6_todos_dedup_counterexample :
    ¬ ((parse_text ("TODO: a\nTODO: a".toList)).todos.Nodup) := by
  decide

/-- Claim C6 (amended): for every markdown-format document the `todos`
collection is duplicate-free (`list(set(todos))`); text-format documents
return the raw match list, which can contain duplicates. -/
theorem C6_todos_dedup_markdown (content : Str) :
    ((parse_markdown content).todos).Nodup :=
  List.nodup_dedup _

/-! ## Facts about the bracket-keyword rule -/

theorem bracketStep_none {c : Char} {r : Str} (h : c ≠ '[') :
    bracketStep (c :: r) = none := by
  simp [bracketStep, h]

theorem bracketMatches_mem_append (p : Str) (hp : '[' ∉ p) (ch : Char)
    (hch : ch ≠ ']') (s : Str) :
    [ch] ∈ bracketMatches (p ++ '-' :: ' ' :: '[' :: ch :: ']' :: ' ' :: s) := by
  unfold bracketMatches
  rw [reScan_append_of_no_match bracketStep p _ (fun i hi => ?_)]
  · have h1 : bracketStep ('-' :: ' ' :: '[' :: ch :: ']' :: ' ' :: s) = none :=
      bracketStep_none (by decide)
    have h2 : bracketStep (' ' :: '[' :: ch :: ']' :: ' ' :: s) = none :=
      bracketStep_none (by decide)
    have h3 : bracketStep ('[' :: ch :: ']' :: ' ' :: s) = some ([ch], 3) := by
      simp [bracketStep, List.takeWhile_cons, List.dropWhile_cons, hch]
    rw [reScan_cons_none h1, reScan_cons_none h2, reScan_cons_some h3]
    exact List.mem_cons_self _ _
  · have hlt : i < (p ++ '-' :: ' ' :: '[' :: ch :: ']' :: ' ' :: s).length := by
      simp; omega
    rw [List.drop_eq_getElem_cons hlt]
    refine bracketStep_none ?_
    rw [List.getElem_append_left hi]
    exact fun hx => hp (hx ▸ List.getElem_mem hi)

/-- Claim C10 (amended): the bracket-keyword rule is not excluded from
checkbox syntax — the checkbox brackets of a `- [x] task` or
`- [ ] task` line are matched like any other brackets, so whenever no
`[` occurs earlier in the document (an earlier unmatched `[` can swallow
the checkbox brackets into its own match), the keyword set contains the
string "x", respectively the single-space string " ". -/
theorem C10_checkbox_bracket_keywords (p s : Str) (hp : '[' ∉ p) :
    ['x'] ∈ (parse_markdown (p ++ ("- [x] ".toList) ++ s)).keywords ∧
    [' '] ∈ (parse_markdown (p ++ ("- [ ] ".toList) ++ s)).keywords := by
  constructor
  all_goals
    simp only [parse_markdown, List.mem_dedup]
    refine List.mem_append_right _ ?_
    simpa using bracketMatches_mem_append p hp _ (by decide) s

/-- Witness for C10: a document with no stray `[` before its checkbox
lines; both the checked-box "x" and the unchecked-box " " keyword
memberships are concrete instances of the theorem. -/
theorem C10_checkbox_bracket_keywords_witness :
    ['x'] ∈ (parse_markdown (("notes\n".toList) ++ ("- [x] ".toList) ++
      ("Pay rent".toList))).keywords :=
  (C10_checkbox_bracket_keywords ("notes\n".toList) ("Pay rent".toList)
    (by decide)).1

/-- Counterexample to claim C10 as stated: this markdown document
contains the checkbox todo line `- [x] task` (its todo list is exactly
["task"]), yet its keyword set does not contain "x": the unmatched `[`
on the first line makes the bracket rule capture "a\n- [x" instead, so
the claim's unconditional membership fails. -/
theorem C10_checkbox_bracket_keywords_counterexample :
    ("x".toList) ∉ (parse_markdown ("[a\n- [x] task".toList)).keywords ∧
    (parse_markdown ("[a\n- [x] task".toList)).todos = [("task".toList)] := by
  exact ⟨by decide, by decide⟩

/-! ## Facts about the TODO prefix rule -/

theorem mem_reScan_of_step {step : Str → Option (Str × Nat)} {s g : Str}
    {n : Nat} (hs : s ≠ []) (h : step s = some (g, n)) :
    g ∈ reScan step 0 s := by
  cases s with
  | nil => exact absurd rfl hs
  | cons c r => rw [reScan_cons_some h]; exact List.mem_cons_self _ _

theorem todoStep_none_of_take {s : Str}
    (h : lowerStr (s.take 4) ≠ ("todo".toList)) : todoStep s = none := by
  rw [todoStep, if_neg h]

theorem hasTodoSub_drop_take {p : Str} (hp : hasTodoSub p = false) :
    ∀ i, lowerStr ((p.drop i).take 4) ≠ ("todo".toList) := by
  induction p with
  | nil =>
    intro i h
    simp [lowerStr] at h
  | cons c r ih =>
    rw [hasTodoSub, Bool.or_eq_false_iff] at hp
    intro i
    match i with
    | 0 => simpa [decide_eq_false_iff_not] using hp.1
    | i + 1 => simpa using ih hp.2 i

theorem todoStep_none_before_marker {p m : Str} (z : Str)
    (hp : hasTodoSub p = false) (hm : lowerStr m = ("todo".toList)) :
    ∀ i, i < p.length → todoStep ((p ++ (m ++ z)).drop i) = none := by
  simp only [lowerStr] at hm
  intro i hi
  have hm4 : m.length = 4 := by
    have := congrArg List.length hm
    simpa using this
  refine todoStep_none_of_take ?_
  rw [List.drop_append_eq_append_drop, Nat.sub_eq_zero_of_le hi.le, List.drop_zero]
  set t := p.drop i with ht
  have htlen : t.length = p.length - i := by simp [ht]
  by_cases h4 : 4 ≤ t.length
  · rw [List.take_append_of_le_length h4]
    exact hasTodoSub_drop_take hp i
  · -- The occurrence would have to straddle `p` and the marker: the tail
    -- of `p` supplies 1 to 3 characters and the marker the rest, but no
    -- proper prefix of "todo" equals the aligned proper suffix of "todo".
    push_neg at h4
    have ht1 : 1 ≤ t.length := by omega
    rw [List.take_append_eq_append_take, List.take_of_length_le (by omega),
      List.take_append_of_le_length (by omega)]
    intro heq
    rw [lowerStr, List.map_append] at heq
    have hdrop2 : (List.take (4 - t.length) m).map Char.toLower =
        ("todo".toList).drop t.length := by
      have h2 := congrArg (List.drop (t.map Char.toLower).length) heq
      rwa [List.drop_left, List.length_map] at h2
    rw [List.map_take, hm] at hdrop2
    have h123 : t.length = 1 ∨ t.length = 2 ∨ t.length = 3 := by omega
    rcases h123 with h | h | h <;> rw [h] at hdrop2 <;>
      exact absurd hdrop2 (by decide)

theorem todoStep_at_marker {m : Str} (hm : lowerStr m = ("todo".toList))
    {x : Char} (hx : isPyWS x = false) {r' q : Str}
    (hr : ∀ ch ∈ r', ch ≠ '\n') (hq : q = [] ∨ ∃ q2, q = '\n' :: q2) :
    todoStep (m ++ ':' :: ' ' :: x :: (r' ++ q)) =
      some (x :: r', 5 + (1 + (r'.length + 1))) := by
  have hm4 : m.length = 4 := by
    have := congrArg List.length hm
    simpa [lowerStr] using this
  have htake : (m ++ ':' :: ' ' :: x :: (r' ++ q)).take 4 = m := by
    rw [← hm4, List.take_left]
  have hdrop : (m ++ ':' :: ' ' :: x :: (r' ++ q)).drop 4 =
      ':' :: ' ' :: x :: (r' ++ q) := by
    rw [← hm4, List.drop_left]
  have hrun : (r' ++ q).takeWhile (fun ch => !(ch = '\n')) = r' := by
    rw [List.takeWhile_append]
    have hself : r'.takeWhile (fun ch => !(ch = '\n')) = r' :=
      List.takeWhile_eq_self_iff.mpr (fun ch hch => by
        simpa using hr ch hch)
    rw [if_pos (by rw [hself])]
    rcases hq with hq | ⟨q2, hq⟩ <;> simp [hq, hself, List.takeWhile_cons]
  have hsp : isPyWS ' ' = true := by decide
  have htail : todoTail (' ' :: x :: (r' ++ q)) =
      some (x :: r', 1 + (r'.length + 1)) := by
    rw [todoTail]
    simp only [List.takeWhile_cons, List.dropWhile_cons, hsp, hx]
    simp [hrun]
  rw [todoStep, if_pos (by rw [htake]; exact hm), hdrop]
  simp only [htail]

/-- Claim C1 (amended): the prefix-based todo rule recognizes exactly the
case-insensitive occurrences of `TODO`, optionally followed by a colon —
anywhere in a line, including inside another word — taking the remainder
of the line (after optional whitespace) as the todo text, and it does
not recognize the `FIXME:` or `NOTE:` prefixes: a document containing no
case-insensitive occurrence of `TODO` (such as any document of `FIXME:`
or `NOTE:` lines) yields no prefix-rule todo at all, and every
`TODO: text` occurrence after a todo-free prefix contributes its
trailing text. -/
theorem C1_todo_rule :
    (∀ c : Str, hasTodoSub c = false → todoMatches c = []) ∧
    (∀ (m p : Str) (x : Char) (r' q : Str),
      lowerStr m = ("todo".toList) → hasTodoSub p = false →
      isPyWS x = false → (∀ ch ∈ r', ch ≠ '\n') →
      (q = [] ∨ ∃ q2, q = '\n' :: q2) →
      (x :: r') ∈ todoMatches (p ++ (m ++ ':' :: ' ' :: x :: (r' ++ q)))) := by
  constructor
  · intro c
    induction c with
    | nil => intro _; rfl
    | cons ch r ih =>
      intro hc
      rw [hasTodoSub, Bool.or_eq_false_iff] at hc
      have hstep : todoStep (ch :: r) = none :=
        todoStep_none_of_take (by simpa [decide_eq_false_iff_not] using hc.1)
      unfold todoMatches
      rw [reScan_cons_none hstep]
      exact ih hc.2
  · intro m p x r' q hm hp hx hr hq
    unfold todoMatches
    rw [reScan_append_of_no_match todoStep p _
      (todoStep_none_before_marker _ hp hm)]
    exact mem_reScan_of_step (by simp) (todoStep_at_marker hm hx hr hq)

/-- Witness for C1: the `FIXME:`/`NOTE:` document yields no todos, and
a concrete `TODO: fix bug` occurrence contributes "fix bug". -/
theorem C1_todo_rule_witness :
    todoMatches ("FIXME: broken\nNOTE: remember".toList) = [] ∧
    ("fix bug".toList) ∈ todoMatches ("see TODO: fix bug".toList) := by
  constructor
  · exact C1_todo_rule.1 ("FIXME: broken\nNOTE: remember".toList) (by decide)
  · have h := C1_todo_rule.2 ("TODO".toList) ("see ".toList) 'f'
      ("ix bug".toList) [] (by decide) (by decide) (by decide)
      (by decide) (Or.inl rfl)
    simpa using h

/-- Counterexample to claim C1 as stated: a `FIXME:` line contributes no
todo even though the claim says every line with that prefix does, and an
occurrence of `todo` inside the word "mastodon" does produce a todo even
though the claim says non-prefix occurrences never do. -/
theorem C1_todo_rule_counterexample :
    (parse_text ("FIXME: broken".toList)).todos = [] ∧
    (parse_text ("mastodon".toList)).todos = [['n']] := by
  exact ⟨by decide, by decide⟩

/-! ## Facts about the hashtag rules -/

theorem mdTagExcluded_replicate (j : Nat) :
    mdTagExcluded (List.replicate j '#') = decide (j ≤ 6) := by
  by_cases h : j ≤ 6
  · rw [decide_eq_true h]
    rw [mdTagExcluded, List.any_eq_true]
    refine ⟨j, List.mem_range.mpr (by omega), ?_⟩
    simp [List.take_replicate, List.drop_replicate]
  · rw [decide_eq_false h]
    rw [mdTagExcluded]
    rw [← Bool.not_eq_true, List.any_eq_true]
    rintro ⟨k, hk, hcond⟩
    rw [List.mem_range] at hk
    have hjk : 1 ≤ j - k := by omega
    rw [List.drop_replicate] at hcond
    obtain ⟨t, ht⟩ : ∃ t, j - k = t + 1 := ⟨j - k - 1, by omega⟩
    rw [ht, List.replicate_succ] at hcond
    simp at hcond

theorem mdTagStep_none_not_hash {pre : Str} {c : Char} {r : Str}
    (h : c ≠ '#') : mdTagStep pre (c :: r) = none := by
  simp [mdTagStep, h]

theorem mdTag_scan_no_hash :
    ∀ (rest pre : Str), (∀ c ∈ rest, c ≠ '#') →
      reScanCtx mdTagStep 0 pre rest = [] := by
  intro rest
  induction rest with
  | nil => intro pre _; rfl
  | cons c r ih =>
    intro pre h
    rw [reScanCtx_cons_none (mdTagStep_none_not_hash (h c (by simp)))]
    exact ih (c :: pre) (fun d hd => h d (by simp [hd]))

theorem mdTag_scan_hashes {w : Str} (hw : w ≠ [])
    (hall : ∀ c ∈ w, isWordChar c = true) :
    ∀ (k j : Nat),
      reScanCtx mdTagStep 0 (List.replicate j '#') (List.replicate k '#' ++ w) =
        if k = 0 ∨ j + k ≤ 7 then [] else [w] := by
  have hw_no_hash : ∀ c ∈ w, c ≠ '#' := by
    intro c hc hch
    have := hall c hc
    rw [hch] at this
    exact absurd this (by decide)
  intro k
  induction k with
  | zero =>
    intro j
    rw [if_pos (Or.inl rfl)]
    simpa using mdTag_scan_no_hash w (List.replicate j '#') hw_no_hash
  | succ k ih =>
    intro j
    rw [List.replicate_succ, List.cons_append]
    by_cases hj : j ≤ 6
    · have hstep :
          mdTagStep (List.replicate j '#') ('#' :: (List.replicate k '#' ++ w)) = none := by
        simp [mdTagStep, mdTagExcluded_replicate, hj]
      rw [reScanCtx_cons_none hstep, show '#' :: List.replicate j '#' =
        List.replicate (j + 1) '#' from (List.replicate_succ _ _).symm, ih (j + 1)]
      have hiff : (k = 0 ∨ j + 1 + k ≤ 7) ↔ (k + 1 = 0 ∨ j + (k + 1) ≤ 7) := by omega
      rw [if_congr hiff rfl rfl]
    · have hex : mdTagExcluded (List.replicate j '#') = false := by
        rw [mdTagExcluded_replicate, decide_eq_false hj]
      cases k with
      | zero =>
        have htw : w.takeWhile isWordChar = w := List.takeWhile_eq_self_iff.mpr hall
        have hstep :
            mdTagStep (List.replicate j '#') ('#' :: (List.replicate 0 '#' ++ w)) =
              some (w, w.length + 1) := by
          rw [List.replicate, List.nil_append, mdTagStep]
          rw [if_pos (by simp [hex])]
          rw [htw]
          cases w with
          | nil => exact absurd rfl hw
          | cons a b => rfl
        rw [reScanCtx_cons_some hstep]
        rw [List.replicate, List.nil_append, Nat.add_sub_cancel,
          reScanCtx_all_skipped _ w w.length ('#' :: List.replicate j '#') (le_refl _)]
        rw [if_neg (by omega)]
      | succ k2 =>
        have hstep :
            mdTagStep (List.replicate j '#')
              ('#' :: (List.replicate (k2 + 1) '#' ++ w)) = none := by
          rw [mdTagStep, if_pos (by simp [hex])]
          rw [List.replicate_succ, List.cons_append, List.takeWhile_cons]
          simp [isWordChar]
        rw [reScanCtx_cons_none hstep, show '#' :: List.replicate j '#' =
          List.replicate (j + 1) '#' from (List.replicate_succ _ _).symm, ih (j + 1)]
        rw [if_neg (by omega), if_neg (by omega)]

theorem textTagStep_none_not_hash {c : Char} {r : Str} (h : c ≠ '#') :
    textTagStep (c :: r) = none := by
  simp [textTagStep, h]

theorem textTag_scan_no_hash :
    ∀ (rest : Str), (∀ c ∈ rest, c ≠ '#') → reScan textTagStep 0 rest = [] := by
  intro rest
  induction rest with
  | nil => intro _; rfl
  | cons c r ih =>
    intro h
    rw [reScan_cons_none (textTagStep_none_not_hash (h c (by simp)))]
    exact ih (fun d hd => h d (by simp [hd]))

theorem textTag_scan_hashes {w : Str} (hw : w ≠ [])
    (hall : ∀ c ∈ w, isWordChar c = true) :
    ∀ k : Nat, reScan textTagStep 0 (List.replicate k '#' ++ w) =
      if k = 0 then [] else [w] := by
  have hw_no_hash : ∀ c ∈ w, c ≠ '#' := by
    intro c hc hch
    have := hall c hc
    rw [hch] at this
    exact absurd this (by decide)
  intro k
  induction k with
  | zero => simpa using textTag_scan_no_hash w hw_no_hash
  | succ k ih =>
    rw [List.replicate_succ, List.cons_append]
    cases k with
    | zero =>
      have htw : w.takeWhile isWordChar = w := List.takeWhile_eq_self_iff.mpr hall
      have hstep : textTagStep ('#' :: (List.replicate 0 '#' ++ w)) =
          some (w, w.length + 1) := by
        rw [List.replicate, List.nil_append, textTagStep]
        rw [if_pos rfl, htw]
        cases w with
        | nil => exact absurd rfl hw
        | cons a b => rfl
      rw [reScan_cons_some hstep, List.replicate, List.nil_append,
        Nat.add_sub_cancel, reScan_all_skipped _ w w.length (le_refl _)]
      rw [if_neg (by omega)]
    | succ k2 =>
      have hstep : textTagStep ('#' :: (List.replicate (k2 + 1) '#' ++ w)) = none := by
        rw [textTagStep, if_pos rfl]
        rw [List.replicate_succ, List.cons_append, List.takeWhile_cons]
        simp [isWordChar]
      rw [reScan_cons_none hstep, ih]
      rw [if_neg (by omega), if_neg (by omega)]

/-- Claim C3 (amended): for markdown format, a `#` immediately followed
by word characters is extracted as a tag unless it is one of the first
seven characters of a line-leading run of `#` — the lookbehinds exclude
a `#` preceded at line start by up to six `#`, so a line-leading run of
one to SEVEN `#` yields no tag, while a run of eight or more does yield
the tag after its final `#`.  For text format every `#word` occurrence,
including at line start, is a tag. -/
theorem C3_header_tag_boundary :
    (∀ (k : Nat) (w : Str), w ≠ [] → (∀ c ∈ w, isWordChar c = true) →
      (parse_markdown (List.replicate k '#' ++ w)).tags =
        if k ≤ 7 then [] else [w]) ∧
    (∀ (k : Nat) (w : Str), w ≠ [] → (∀ c ∈ w, isWordChar c = true) →
      (parse_text (List.replicate k '#' ++ w)).tags =
        if k = 0 then [] else [w]) := by
  constructor
  · intro k w hw hall
    show (mdTagMatches _).dedup = _
    unfold mdTagMatches
    rw [show ([] : Str) = List.replicate 0 '#' from rfl,
      mdTag_scan_hashes hw hall k 0]
    have hiff : (k = 0 ∨ 0 + k ≤ 7) ↔ k ≤ 7 := by omega
    rw [if_congr hiff rfl rfl]
    by_cases hk : k ≤ 7 <;> simp [hk]
  · intro k w hw hall
    show (textTagMatches _).dedup = _
    unfold textTagMatches
    rw [textTag_scan_hashes hw hall k]
    by_cases hk : k = 0 <;> simp [hk]

/-- Witness for C3: a line-leading run of eight `#` yields the tag in
markdown format, and a single line-leading `#` yields it in text
format. -/
theorem C3_header_tag_boundary_witness :
    (parse_markdown (List.replicate 8 '#' ++ ("tag".toList))).tags =
      [("tag".toList)] ∧
    (parse_text (List.replicate 1 '#' ++ ("tag".toList))).tags =
      [("tag".toList)] := by
  constructor
  · simpa using C3_header_tag_boundary.1 8 ("tag".toList) (by decide) (by decide)
  · simpa using C3_header_tag_boundary.2 1 ("tag".toList) (by decide) (by decide)

/-- Counterexample to claim C3 as stated: in `#######tag` the `#`
preceding `tag` belongs to a line-leading run of SEVEN `#`, not one to
six, so the claim says it is extracted as a tag — but the markdown tag
set of this document is empty (the seventh `#` is still rejected, its
six predecessors being `#` at line start). -/
theorem C3_header_tag_boundary_counterexample :
    (parse_markdown ("#######tag".toList)).tags = [] := by
  decide

/-- Claim C2 (amended): for empty or whitespace-only input, extraction
(`parse_file`'s content check) rejects with an error, but analysis does
not reject: `analyze_content` returns the empty record for empty
content and a full analysis record for whitespace-only nonempty
content, raising in neither case. -/
theorem C2_empty_input_rejection (content : Str) (fmt : NoteFormat)
    (h : stripWS content = []) :
    parse_content fmt content = Except.error "File is empty" ∧
    (content = [] → analyze_content content = none) ∧
    (content ≠ [] → analyze_content content ≠ none) := by
  refine ⟨?_, ?_, ?_⟩
  · rw [parse_content.eq_def, if_pos (by simp [h])]
  · intro hc
    simp [analyze_content, hc]
  · intro hc
    simp [analyze_content, List.isEmpty_iff, hc]

/-- Witness for C2: the one-space document is rejected by extraction but
analysed without error. -/
theorem C2_empty_input_rejection_witness :
    parse_content NoteFormat.text [' '] = Except.error "File is empty" ∧
    analyze_content [' '] ≠ none :=
  ⟨(C2_empty_input_rejection [' '] NoteFormat.text (by decide)).1,
   (C2_empty_input_rejection [' '] NoteFormat.text (by decide)).2.2 (by decide)⟩

/-- Counterexample to claim C2 as stated: analysis does not raise on
empty or whitespace-only input — `analyze_content` returns a full
insights record for the whitespace-only document " " and the empty
record (`{}`) for the empty document. -/
theorem C2_empty_input_rejection_counterexample :
    analyze_content [' '] = some (generate_text_insights [' ']) ∧
    analyze_content [] = none :=
  ⟨rfl, rfl⟩

/-! ## Facts about the word-frequency tokenizer -/

theorem dropWhile_head_false {p : Char → Bool} :
    ∀ (r : Str) {d : Char} {l : Str}, r.dropWhile p = d :: l → p d = false := by
  intro r
  induction r with
  | nil => intro d l h; cases h
  | cons a r2 ih =>
    intro d l h
    rw [List.dropWhile_cons] at h
    by_cases ha : p a = true
    · rw [if_pos ha] at h
      exact ih h
    · rw [if_neg ha] at h
      cases h
      exact Bool.not_eq_true _ |>.mp ha

theorem takeWhile_word_of_alpha_stop :
    ∀ (r : Str),
      (match r.dropWhile Char.isAlpha with
        | [] => true | d :: _ => !isWordChar d) = true →
      r.takeWhile isWordChar = r.takeWhile Char.isAlpha ∧
        r.dropWhile isWordChar = r.dropWhile Char.isAlpha := by
  intro r
  induction r with
  | nil => intro _; exact ⟨rfl, rfl⟩
  | cons a r2 ih =>
    intro h
    by_cases ha : a.isAlpha = true
    · have hw : isWordChar a = true := by simp [isWordChar, ha]
      rw [List.dropWhile_cons, if_pos ha] at h
      obtain ⟨h1, h2⟩ := ih h
      constructor
      · simp only [List.takeWhile_cons, hw, ha, if_true, h1]
      · simp only [List.dropWhile_cons, hw, ha, if_true, h2]
    · rw [List.dropWhile_cons, if_neg ha] at h
      have hw : isWordChar a = false := by simpa using h
      constructor
      · simp only [List.takeWhile_cons, hw, ha, Bool.false_eq_true, if_false]
      · simp only [List.dropWhile_cons, hw, ha, Bool.false_eq_true, if_false]

theorem takeWhile_word_of_word_stop :
    ∀ (r : Str) {d : Char} {restA2 : Str},
      r.dropWhile Char.isAlpha = d :: restA2 → isWordChar d = true →
      r.takeWhile isWordChar =
          r.takeWhile Char.isAlpha ++ d :: restA2.takeWhile isWordChar ∧
        r.dropWhile isWordChar = restA2.dropWhile isWordChar := by
  intro r
  induction r with
  | nil => intro d restA2 h _; cases h
  | cons a r2 ih =>
    intro d restA2 h hd
    by_cases ha : a.isAlpha = true
    · have hw : isWordChar a = true := by simp [isWordChar, ha]
      rw [List.dropWhile_cons, if_pos ha] at h
      obtain ⟨h1, h2⟩ := ih h hd
      constructor
      · simp only [List.takeWhile_cons, hw, ha, if_true, h1, List.cons_append]
      · simp only [List.dropWhile_cons, hw, ha, if_true, h2]
    · rw [List.dropWhile_cons, if_neg ha] at h
      cases h
      constructor
      · simp only [List.takeWhile_cons, hd, ha, Bool.false_eq_true, if_false,
          if_true, List.nil_append]
      · simp only [List.dropWhile_cons, hd, if_true]

theorem wordRuns_scan_cons_word {c : Char} {r : Str} (h : isWordChar c = true) :
    reScan wordRunStep 0 (c :: r) =
      (c :: r.takeWhile isWordChar) ::
        reScan wordRunStep 0 (r.dropWhile isWordChar) := by
  have hstep : wordRunStep (c :: r) =
      some (c :: r.takeWhile isWordChar, (c :: r.takeWhile isWordChar).length) := by
    simp [wordRunStep, h]
  rw [reScan_cons_some hstep]
  congr 1
  have hlen : (c :: r.takeWhile isWordChar).length - 1 =
      (r.takeWhile isWordChar).length := by simp
  rw [hlen]
  have hsk := reScan_skip wordRunStep (r.takeWhile isWordChar)
    (r.dropWhile isWordChar)
  rw [List.takeWhile_append_dropWhile] at hsk
  exact hsk

theorem wordRuns_scan_cons_notword {c : Char} {r : Str}
    (h : isWordChar c = false) :
    reScan wordRunStep 0 (c :: r) = reScan wordRunStep 0 r :=
  reScan_cons_none (by simp [wordRunStep, h])

theorem alphaTokenStep_some {minLen : Nat} {pre : Str} {c : Char} {r : Str}
    (hA : c.isAlpha = true)
    (hb : (match pre with | [] => true | p :: _ => !isWordChar p) = true)
    (hc1 : minLen ≤ (c :: r.takeWhile Char.isAlpha).length)
    (hc2 : (match r.dropWhile Char.isAlpha with
      | [] => true | d :: _ => !isWordChar d) = true) :
    alphaTokenStep minLen pre (c :: r) =
      some (c :: r.takeWhile Char.isAlpha,
        (c :: r.takeWhile Char.isAlpha).length) := by
  simp only [alphaTokenStep, hA, hb, Bool.and_self, if_true, hc2,
    decide_eq_true hc1, Bool.and_true, if_pos]

theorem alphaTokenStep_none_boundary {minLen : Nat} {pre : Str} {c : Char}
    {r : Str}
    (hb : (match pre with | [] => true | p :: _ => !isWordChar p) = false) :
    alphaTokenStep minLen pre (c :: r) = none := by
  simp [alphaTokenStep, hb]

theorem alphaTokenStep_none_notalpha {minLen : Nat} {pre : Str} {c : Char}
    {r : Str} (hA : c.isAlpha = false) :
    alphaTokenStep minLen pre (c :: r) = none := by
  simp [alphaTokenStep, hA]

theorem alphaTokenStep_none_short {minLen : Nat} {pre : Str} {c : Char}
    {r : Str} (hc1 : ¬ minLen ≤ (c :: r.takeWhile Char.isAlpha).length) :
    alphaTokenStep minLen pre (c :: r) = none := by
  simp only [List.length_cons] at hc1
  simp [alphaTokenStep]
  intro h1 h2 h3
  exact absurd h3 hc1

theorem alphaTokenStep_none_inword {minLen : Nat} {pre : Str} {c : Char}
    {r : Str}
    (hc2 : (match r.dropWhile Char.isAlpha with
      | [] => true | d :: _ => !isWordChar d) = false) :
    alphaTokenStep minLen pre (c :: r) = none := by
  simp [alphaTokenStep, hc2]

theorem boundary_after_alpha_run (t : Str) (c : Char) (pre : Str)
    (ht : ∀ a ∈ t, a.isAlpha = true) (hc : isWordChar c = true) :
    (match (t.reverse ++ c :: pre) with
      | [] => true | p :: _ => !isWordChar p) = false := by
  cases htr : t.reverse with
  | nil => simp [htr, hc]
  | cons h tl =>
    have hmem : h ∈ t := by
      rw [← List.mem_reverse, htr]
      exact List.mem_cons_self _ _
    have hw : isWordChar h = true := by simp [isWordChar, ht h hmem]
    simp [htr, hw]

theorem dropWhile_word_eq_self_of_stop {restA : Str}
    (hc2 : (match restA with | [] => true | d :: _ => !isWordChar d) = true) :
    restA.dropWhile isWordChar = restA := by
  cases restA with
  | nil => rfl
  | cons d l =>
    rw [List.dropWhile_cons, if_neg (by simpa using hc2)]

theorem alphaToken_scan_eq (minLen : Nat) :
    ∀ (n : Nat) (s pre : Str), s.length ≤ n →
      ((match pre with | [] => true | p :: _ => !isWordChar p) = true →
        reScanCtx (alphaTokenStep minLen) 0 pre s =
          (reScan wordRunStep 0 s).filter
            (fun t => t.all Char.isAlpha && decide (minLen ≤ t.length))) ∧
      ((match pre with | [] => true | p :: _ => !isWordChar p) = false →
        reScanCtx (alphaTokenStep minLen) 0 pre s =
          (reScan wordRunStep 0 (s.dropWhile isWordChar)).filter
            (fun t => t.all Char.isAlpha && decide (minLen ≤ t.length))) := by
  intro n
  induction n with
  | zero =>
    intro s pre hs
    have hnil : s = [] := List.eq_nil_of_length_eq_zero (Nat.le_zero.mp hs)
    subst hnil
    exact ⟨fun _ => rfl, fun _ => rfl⟩
  | succ n ih =>
    intro s pre hs
    cases s with
    | nil => exact ⟨fun _ => rfl, fun _ => rfl⟩
    | cons c r =>
      have hrn : r.length ≤ n := by simpa using hs
      constructor
      · intro hb
        by_cases hA : c.isAlpha = true
        · have hW : isWordChar c = true := by simp [isWordChar, hA]
          by_cases hc2 : (match r.dropWhile Char.isAlpha with
            | [] => true | d :: _ => !isWordChar d) = true
          · obtain ⟨hTW, hDW⟩ := takeWhile_word_of_alpha_stop r hc2
            by_cases hc1 : minLen ≤ (c :: r.takeWhile Char.isAlpha).length
            · rw [reScanCtx_cons_some (alphaTokenStep_some hA hb hc1 hc2)]
              have hlen : (c :: r.takeWhile Char.isAlpha).length - 1 =
                  (r.takeWhile Char.isAlpha).length := by simp
              rw [hlen]
              have hsk := reScanCtx_skip (alphaTokenStep minLen)
                (r.takeWhile Char.isAlpha) (c :: pre) (r.dropWhile Char.isAlpha)
              rw [List.takeWhile_append_dropWhile] at hsk
              rw [hsk]
              have hbnext := boundary_after_alpha_run
                (r.takeWhile Char.isAlpha) c pre
                (fun a ha => List.mem_takeWhile_imp ha) hW
              have hrd : (r.dropWhile Char.isAlpha).length ≤ n :=
                le_trans ((List.dropWhile_sublist _).length_le) hrn
              rw [(ih (r.dropWhile Char.isAlpha) _ hrd).2 hbnext,
                dropWhile_word_eq_self_of_stop hc2]
              rw [wordRuns_scan_cons_word hW, hTW, hDW, List.filter_cons]
              have hPtrue : ((c :: r.takeWhile Char.isAlpha).all Char.isAlpha &&
                  decide (minLen ≤ (c :: r.takeWhile Char.isAlpha).length)) = true := by
                rw [Bool.and_eq_true]
                refine ⟨?_, decide_eq_true hc1⟩
                rw [List.all_cons, hA, Bool.true_and]
                exact List.all_eq_true.mpr (fun a ha => List.mem_takeWhile_imp ha)
              rw [if_pos hPtrue]
            · rw [reScanCtx_cons_none (alphaTokenStep_none_short hc1)]
              have hbnext : (match (c :: pre) with
                  | [] => true | p :: _ => !isWordChar p) = false := by simp [hW]
              rw [(ih r (c :: pre) hrn).2 hbnext]
              rw [wordRuns_scan_cons_word hW, hTW, hDW, List.filter_cons]
              have hPfalse : ((c :: r.takeWhile Char.isAlpha).all Char.isAlpha &&
                  decide (minLen ≤ (c :: r.takeWhile Char.isAlpha).length)) = false := by
                rw [decide_eq_false hc1, Bool.and_false]
              rw [if_neg (by rw [hPfalse]; exact Bool.false_ne_true)]
          · have hc2f : (match r.dropWhile Char.isAlpha with
                | [] => true | d :: _ => !isWordChar d) = false := by
              simpa using hc2
            rw [reScanCtx_cons_none (alphaTokenStep_none_inword hc2f)]
            have hbnext : (match (c :: pre) with
                | [] => true | p :: _ => !isWordChar p) = false := by simp [hW]
            rw [(ih r (c :: pre) hrn).2 hbnext]
            rw [wordRuns_scan_cons_word hW, List.filter_cons]
            obtain ⟨d, restA2, hrd⟩ : ∃ d l, r.dropWhile Char.isAlpha = d :: l := by
              cases hcase : r.dropWhile Char.isAlpha with
              | nil => rw [hcase] at hc2f; cases hc2f
              | cons d l => exact ⟨d, l, rfl⟩
            have hWd : isWordChar d = true := by
              rw [hrd] at hc2f
              simpa using hc2f
            have hAd : d.isAlpha = false := dropWhile_head_false r hrd
            obtain ⟨hTW2, hDW2⟩ := takeWhile_word_of_word_stop r hrd hWd
            have hPfalse : ((c :: r.takeWhile isWordChar).all Char.isAlpha &&
                decide (minLen ≤ (c :: r.takeWhile isWordChar).length)) = false := by
              rw [hTW2]
              simp [List.all_cons, List.all_append, hAd]
            rw [if_neg (by rw [hPfalse]; exact Bool.false_ne_true)]
        · have hAf : c.isAlpha = false := by simpa using hA
          rw [reScanCtx_cons_none (alphaTokenStep_none_notalpha hAf)]
          by_cases hW : isWordChar c = true
          · have hbnext : (match (c :: pre) with
                | [] => true | p :: _ => !isWordChar p) = false := by simp [hW]
            rw [(ih r (c :: pre) hrn).2 hbnext]
            rw [wordRuns_scan_cons_word hW, List.filter_cons]
            have hPfalse : ((c :: r.takeWhile isWordChar).all Char.isAlpha &&
                decide (minLen ≤ (c :: r.takeWhile isWordChar).length)) = false := by
              simp [List.all_cons, hAf]
            rw [if_neg (by rw [hPfalse]; exact Bool.false_ne_true)]
          · have hWf : isWordChar c = false := by simpa using hW
            have hbnext : (match (c :: pre) with
                | [] => true | p :: _ => !isWordChar p) = true := by simp [hWf]
            rw [(ih r (c :: pre) hrn).1 hbnext]
            rw [wordRuns_scan_cons_notword hWf]
      · intro hb
        rw [reScanCtx_cons_none (alphaTokenStep_none_boundary hb)]
        by_cases hW : isWordChar c = true
        · have hbnext : (match (c :: pre) with
              | [] => true | p :: _ => !isWordChar p) = false := by simp [hW]
          rw [(ih r (c :: pre) hrn).2 hbnext]
          rw [List.dropWhile_cons, if_pos hW]
        · have hWf : isWordChar c = false := by simpa using hW
          have hbnext : (match (c :: pre) with
              | [] => true | p :: _ => !isWordChar p) = true := by simp [hWf]
          rw [(ih r (c :: pre) hrn).1 hbnext]
          rw [List.dropWhile_cons, if_neg (by simp [hWf]),
            wordRuns_scan_cons_notword hWf]

/-- Claim C7 (amended): for every input text and every configured
minimum length, the tokenization used by `analyze_word_frequency` yields
exactly the maximal word-character runs of the lowercased content that
consist solely of letters and have length at least the minimum — the
`\b` boundaries reject any letter run adjacent to a digit or
underscore, rather than extracting it. -/
theorem C7_tokenization (content : Str) (minLen : Nat) :
    freqTokens content minLen = specFreqTokens content minLen := by
  unfold freqTokens specFreqTokens
  exact (alphaToken_scan_eq minLen (lowerStr content).length
    (lowerStr content) [] (le_refl _)).1 rfl

/-- Witness for C7 (its only hypothesis is the trivial length bound of
the general lemma; stated on a concrete document): the tokenizer and its
maximal-run characterization agree on a mixed document. -/
theorem C7_tokenization_witness :
    freqTokens ("Ab1 cde_f ghij".toList) 3 =
      specFreqTokens ("Ab1 cde_f ghij".toList) 3 :=
  C7_tokenization ("Ab1 cde_f ghij".toList) 3

/-- Counterexample to claim C7 as stated: the claim says "note2self"
yields the tokens "note" and "self" at minimum 3 or 4, but the `\b`
boundaries of the pattern fail inside the word run, so no token at all
is produced. -/
theorem C7_tokenization_counterexample :
    freqTokens ("note2self".toList) 3 = [] ∧
    freqTokens ("note2self".toList) 4 = [] :=
  ⟨by decide, by decide⟩

/-! ## Facts about the Counter and most_common models -/

theorem insertLe_perm (le : α → α → Bool) (x : α) :
    ∀ l : List α, (insertLe le x l).Perm (x :: l) := by
  intro l
  induction l with
  | nil => exact List.Perm.refl _
  | cons y ys ih =>
    rw [insertLe]
    by_cases h : le x y = true
    · rw [if_pos h]
    · rw [if_neg h]
      exact (ih.cons y).trans (List.Perm.swap x y ys)

theorem isortLe_perm (le : α → α → Bool) :
    ∀ l : List α, (isortLe le l).Perm l := by
  intro l
  induction l with
  | nil => exact List.Perm.refl _
  | cons a l ih =>
    show (insertLe le a (isortLe le l)).Perm (a :: l)
    exact (insertLe_perm le a (isortLe le l)).trans (ih.cons a)

theorem mem_insertLe {le : α → α → Bool} {x z : α} {l : List α} :
    z ∈ insertLe le x l ↔ z = x ∨ z ∈ l := by
  rw [(insertLe_perm le x l).mem_iff, List.mem_cons]

theorem pairwise_insertLe {le : α → α → Bool}
    (htot : ∀ a b, le a b = true ∨ le b a = true)
    (htrans : ∀ a b c, le a b = true → le b c = true → le a c = true)
    (x : α) :
    ∀ l : List α, l.Pairwise (fun a b => le a b = true) →
      (insertLe le x l).Pairwise (fun a b => le a b = true) := by
  intro l
  induction l with
  | nil => intro _; simp [insertLe]
  | cons y ys ih =>
    intro h
    rw [List.pairwise_cons] at h
    obtain ⟨hy, hys⟩ := h
    rw [insertLe]
    by_cases hxy : le x y = true
    · rw [if_pos hxy]
      refine List.Pairwise.cons ?_ (List.Pairwise.cons hy hys)
      intro z hz
      rcases List.mem_cons.mp hz with hz | hz
      · exact hz ▸ hxy
      · exact htrans x y z hxy (hy z hz)
    · rw [if_neg hxy]
      have hyx : le y x = true := (htot x y).resolve_left hxy
      refine List.Pairwise.cons ?_ (ih hys)
      intro z hz
      rcases mem_insertLe.mp hz with hz | hz
      · exact hz ▸ hyx
      · exact hy z hz

theorem pairwise_isortLe {le : α → α → Bool}
    (htot : ∀ a b, le a b = true ∨ le b a = true)
    (htrans : ∀ a b c, le a b = true → le b c = true → le a c = true) :
    ∀ l : List α, (isortLe le l).Pairwise (fun a b => le a b = true) := by
  intro l
  induction l with
  | nil => exact List.Pairwise.nil
  | cons a l ih => exact pairwise_insertLe htot htrans a _ ih

theorem mcLe_total (a b : Nat × α × Nat) : mcLe a b = true ∨ mcLe b a = true := by
  simp only [mcLe, Bool.or_eq_true, Bool.and_eq_true, decide_eq_true_eq]
  omega

theorem mcLe_trans (a b c : Nat × α × Nat) (h1 : mcLe a b = true)
    (h2 : mcLe b c = true) : mcLe a c = true := by
  simp only [mcLe, Bool.or_eq_true, Bool.and_eq_true, decide_eq_true_eq] at *
  omega

theorem tallyStep_map_fst_of_mem [DecidableEq α] {acc : List (α × Nat)} {w : α}
    (h : acc.any (fun p => p.1 = w) = true) :
    (tallyStep acc w).map Prod.fst = acc.map Prod.fst := by
  rw [tallyStep, if_pos h, List.map_map]
  congr 1
  funext p
  by_cases hp : p.1 = w <;> simp [hp]

theorem tallyStep_map_fst_of_not_mem [DecidableEq α] {acc : List (α × Nat)}
    {w : α} (h : acc.any (fun p => p.1 = w) = false) :
    (tallyStep acc w).map Prod.fst = acc.map Prod.fst ++ [w] := by
  rw [tallyStep, if_neg (by simp [h]), List.map_append]
  rfl

theorem any_fst_eq_false_iff [DecidableEq α] {acc : List (α × Nat)} {w : α} :
    acc.any (fun p => p.1 = w) = false ↔ w ∉ acc.map Prod.fst := by
  rw [← Bool.not_eq_true, List.any_eq_true]
  simp

theorem tally_aux_keys_nodup [DecidableEq α] :
    ∀ (l : List α) (acc : List (α × Nat)), (acc.map Prod.fst).Nodup →
      ((l.foldl tallyStep acc).map Prod.fst).Nodup := by
  intro l
  induction l with
  | nil => intro acc h; exact h
  | cons w l ih =>
    intro acc h
    rw [List.foldl_cons]
    refine ih (tallyStep acc w) ?_
    cases hany : acc.any (fun p => p.1 = w) with
    | true => rw [tallyStep_map_fst_of_mem hany]; exact h
    | false =>
      rw [tallyStep_map_fst_of_not_mem hany]
      rw [List.nodup_append]
      exact ⟨h, List.nodup_singleton w,
        by simpa using any_fst_eq_false_iff.mp hany⟩

theorem map_bump_of_not_mem [DecidableEq α] {w : α} :
    ∀ (acc : List (α × Nat)), w ∉ acc.map Prod.fst →
      acc.map (fun p => if p.1 = w then (p.1, p.2 + 1) else p) = acc := by
  intro acc
  induction acc with
  | nil => intro _; rfl
  | cons q acc ih =>
    intro h
    rw [List.map_cons, List.mem_cons] at h
    push_neg at h
    rw [List.map_cons, if_neg (fun he => h.1 he.symm), ih h.2]

theorem map_bump_sum [DecidableEq α] {w : α} :
    ∀ (acc : List (α × Nat)), (acc.map Prod.fst).Nodup →
      w ∈ acc.map Prod.fst →
      ((acc.map (fun p => if p.1 = w then (p.1, p.2 + 1) else p)).map
        Prod.snd).sum = (acc.map Prod.snd).sum + 1 := by
  intro acc
  induction acc with
  | nil => intro _ h; cases h
  | cons q acc ih =>
    intro hnd hmem
    rw [List.map_cons, List.nodup_cons] at hnd
    by_cases hq : q.1 = w
    · rw [List.map_cons, if_pos hq, map_bump_of_not_mem acc (hq ▸ hnd.1)]
      simp
      omega
    · have hw : w ∈ acc.map Prod.fst := by
        rw [List.map_cons, List.mem_cons] at hmem
        rcases hmem with h | h
        · exact absurd h.symm hq
        · exact h
      rw [List.map_cons, if_neg hq]
      have := ih hnd.2 hw
      simp only [List.map_cons, List.sum_cons] at *
      omega

theorem tallyStep_sum [DecidableEq α] (acc : List (α × Nat)) (w : α)
    (hnd : (acc.map Prod.fst).Nodup) :
    ((tallyStep acc w).map Prod.snd).sum = (acc.map Prod.snd).sum + 1 := by
  cases hany : acc.any (fun p => p.1 = w) with
  | false =>
    rw [tallyStep, if_neg (by simp [hany])]
    simp
  | true =>
    rw [tallyStep, if_pos hany]
    rw [List.any_eq_true] at hany
    obtain ⟨p0, hp0, hp0w⟩ := hany
    rw [decide_eq_true_eq] at hp0w
    exact map_bump_sum acc hnd
      (List.mem_map.mpr ⟨p0, hp0, hp0w⟩)

theorem tally_aux_sum [DecidableEq α] :
    ∀ (l : List α) (acc : List (α × Nat)), (acc.map Prod.fst).Nodup →
      ((l.foldl tallyStep acc).map Prod.snd).sum =
        (acc.map Prod.snd).sum + l.length := by
  intro l
  induction l with
  | nil => intro acc _; rfl
  | cons w l ih =>
    intro acc hnd
    rw [List.foldl_cons]
    have hnd2 : ((tallyStep acc w).map Prod.fst).Nodup := by
      cases hany : acc.any (fun p => p.1 = w) with
      | true => rw [tallyStep_map_fst_of_mem hany]; exact hnd
      | false =>
        rw [tallyStep_map_fst_of_not_mem hany, List.nodup_append]
        exact ⟨hnd, List.nodup_singleton w,
          by simpa using any_fst_eq_false_iff.mp hany⟩
    rw [ih (tallyStep acc w) hnd2, tallyStep_sum acc w hnd]
    simp
    omega

theorem tally_keys_nodup [DecidableEq α] (l : List α) :
    ((tally l).map Prod.fst).Nodup :=
  tally_aux_keys_nodup l [] List.nodup_nil

theorem tally_sum_eq_length [DecidableEq α] (l : List α) :
    ((tally l).map Prod.snd).sum = l.length := by
  have := tally_aux_sum l [] List.nodup_nil
  simpa [tally] using this

theorem tally_aux_mem_fst [DecidableEq α] :
    ∀ (l : List α) (acc : List (α × Nat)) (p : α × Nat),
      p ∈ l.foldl tallyStep acc → p.1 ∈ acc.map Prod.fst ∨ p.1 ∈ l := by
  intro l
  induction l with
  | nil =>
    intro acc p hp
    exact Or.inl (List.mem_map.mpr ⟨p, hp, rfl⟩)
  | cons w l ih =>
    intro acc p hp
    rw [List.foldl_cons] at hp
    rcases ih (tallyStep acc w) p hp with h | h
    · cases hany : acc.any (fun q => q.1 = w) with
      | true =>
        rw [tallyStep_map_fst_of_mem hany] at h
        exact Or.inl h
      | false =>
        rw [tallyStep_map_fst_of_not_mem hany, List.mem_append] at h
        rcases h with h | h
        · exact Or.inl h
        · right
          simp at h
          simp [h]
    · exact Or.inr (List.mem_cons_of_mem w h)

theorem tally_mem_fst [DecidableEq α] {l : List α} {p : α × Nat}
    (hp : p ∈ tally l) : p.1 ∈ l := by
  rcases tally_aux_mem_fst l [] p hp with h | h
  · cases h
  · exact h

theorem findIdx_fst_eq [DecidableEq α] :
    ∀ (l : List (α × Nat)), ((l.map Prod.fst).Nodup) →
      ∀ (i : Nat) (hi : i < l.length),
        l.findIdx (fun p => decide (p.1 = (l.get ⟨i, hi⟩).1)) = i := by
  intro l
  induction l with
  | nil => intro _ i hi; cases hi
  | cons q l ih =>
    intro hnd i hi
    rw [List.map_cons, List.nodup_cons] at hnd
    match i with
    | 0 => simp [List.findIdx_cons]
    | i + 1 =>
      have hget : ((q :: l).get ⟨i + 1, hi⟩) = l.get ⟨i, by simpa using hi⟩ := rfl
      rw [hget, List.findIdx_cons]
      have hne : (q.1 = (l.get ⟨i, by simpa using hi⟩).1) = False := by
        simp only [eq_iff_iff, iff_false]
        intro he
        exact hnd.1 (he ▸ List.mem_map.mpr ⟨_, List.get_mem l i _, rfl⟩)
      simp only [hne, decide_False, cond_false]
      rw [ih hnd.2 i (by simpa using hi)]

theorem mostCommon_subset [DecidableEq α] {n : Nat} {counts : List (α × Nat)}
    {p : α × Nat} (hp : p ∈ mostCommon n counts) : p ∈ counts := by
  unfold mostCommon at hp
  obtain ⟨e, he, hep⟩ := List.mem_map.mp hp
  have he2 : e ∈ isortLe mcLe counts.enum := (List.take_sublist n _).subset he
  have he3 : e ∈ counts.enum := (isortLe_perm mcLe counts.enum).mem_iff.mp he2
  obtain ⟨i, x⟩ := e
  obtain ⟨hi, hx⟩ := List.mem_enum he3
  rw [← hep, hx]
  exact List.getElem_mem hi

/-- Claim C4: for every input text and parameters, the word-frequency
result has counts sorted in non-increasing order, entries with equal
counts ordered by the first-seen rank of their word in the qualifying
token stream (the position of the word in the insertion-ordered
counter), and the sum of the returned counts is at most the number of
qualifying tokens. -/
theorem C4_word_frequency_order (content : Str) (minLen topN : Nat)
    (includeStop : Bool) :
    ((analyze_word_frequency content minLen topN includeStop).map
      Prod.snd).sum ≤ (freqWords content minLen includeStop).length ∧
    (analyze_word_frequency content minLen topN includeStop).Pairwise
      (fun a b => b.2 ≤ a.2 ∧ (a.2 = b.2 →
        firstSeenRank (freqWords content minLen includeStop) a.1 <
          firstSeenRank (freqWords content minLen includeStop) b.1)) := by
  have hana : analyze_word_frequency content minLen topN includeStop =
      ((isortLe mcLe (tally (freqWords content minLen includeStop)).enum).take
        topN).map Prod.snd := rfl
  set toks := freqWords content minLen includeStop with htoks
  set T := tally toks with hT
  set S := isortLe mcLe T.enum with hS
  have hperm : S.Perm T.enum := isortLe_perm mcLe T.enum
  constructor
  · rw [hana, List.map_map]
    have hsplit : ((S.take topN).map (Prod.snd ∘ Prod.snd)).sum ≤
        (S.map (Prod.snd ∘ Prod.snd)).sum := by
      conv_rhs => rw [← List.take_append_drop topN S]
      rw [List.map_append, List.sum_append]
      omega
    have hperm2 : (S.map (Prod.snd ∘ Prod.snd)).Perm
        (T.enum.map (Prod.snd ∘ Prod.snd)) := hperm.map _
    have henum : T.enum.map (Prod.snd ∘ Prod.snd) = T.map Prod.snd := by
      rw [← List.map_map, List.enum_map_snd]
    calc ((S.take topN).map (Prod.snd ∘ Prod.snd)).sum
        ≤ (S.map (Prod.snd ∘ Prod.snd)).sum := hsplit
      _ = (T.map Prod.snd).sum := by rw [hperm2.sum_eq, henum]
      _ = toks.length := tally_sum_eq_length toks
  · rw [hana, List.pairwise_map]
    refine List.Pairwise.sublist (List.take_sublist topN S) ?_
    have P1 : S.Pairwise (fun a b => mcLe a b = true) :=
      pairwise_isortLe mcLe_total mcLe_trans T.enum
    have hnodupS : (S.map Prod.fst).Nodup := by
      rw [(hperm.map Prod.fst).nodup_iff, List.enum_map_fst]
      exact List.nodup_range _
    have P2 : S.Pairwise (fun a b => a.1 ≠ b.1) :=
      List.pairwise_map.mp hnodupS
    have P3 : ∀ e ∈ S, firstSeenRank toks e.2.1 = e.1 := by
      intro e he
      have he2 : e ∈ T.enum := hperm.mem_iff.mp he
      obtain ⟨i, x⟩ := e
      obtain ⟨hi, hx⟩ := List.mem_enum he2
      show firstSeenRank toks x.1 = i
      rw [hx]
      have h := findIdx_fst_eq T (by rw [hT]; exact tally_keys_nodup toks) i hi
      rw [firstSeenRank, ← hT]
      simpa using h
    refine List.Pairwise.imp_of_mem ?_ (P1.and P2)
    intro a b ha hb hab
    obtain ⟨h1, h2⟩ := hab
    rw [mcLe, Bool.or_eq_true, Bool.and_eq_true] at h1
    simp only [decide_eq_true_eq] at h1
    constructor
    · rcases h1 with h | ⟨he, _⟩
      · omega
      · omega
    · intro heq
      have hidx : a.1 ≤ b.1 := by
        rcases h1 with h | ⟨_, h⟩
        · omega
        · exact h
      have hlt : a.1 < b.1 := lt_of_le_of_ne hidx h2
      rw [P3 a ha, P3 b hb]
      exact hlt

/-- Witness for C4 (the general theorem's only binders are the inputs;
instantiated on a concrete document): sum bound and order on a document
with a tie between "bb" and "aa". -/
theorem C4_word_frequency_order_witness :
    ((analyze_word_frequency ("bb aa aa bb cc".toList) 2 10 false).map
      Prod.snd).sum ≤ (freqWords ("bb aa aa bb cc".toList) 2 false).length :=
  (C4_word_frequency_order ("bb aa aa bb cc".toList) 2 10 false).1

/-! ## Facts about key-phrase extraction -/

theorem splitWS_sound {s t : Str} (ht : t ∈ splitWS s) :
    t ≠ [] ∧ ∀ ch ∈ t, isPyWS ch = false := by
  obtain ⟨u, _, n, hn⟩ := mem_reScan s 0 ht
  cases u with
  | nil => cases hn
  | cons c r =>
    rw [splitWSStep] at hn
    by_cases hc : isPyWS c = true
    · rw [if_pos hc] at hn
      cases hn
    · rw [if_neg hc] at hn
      have hc' : isPyWS c = false := by simpa using hc
      simp only [Option.some.injEq, Prod.mk.injEq] at hn
      obtain ⟨ht, _⟩ := hn
      subst ht
      refine ⟨by simp, ?_⟩
      intro ch hch
      rcases List.mem_cons.mp hch with h | h
      · exact h ▸ hc'
      · simpa using List.mem_takeWhile_imp h

theorem splitWS_word_head {w : Str} (hw : w ≠ [])
    (hnw : ∀ ch ∈ w, isPyWS ch = false) (rest : Str)
    (hrest : rest = [] ∨ ∃ c2 r2, rest = c2 :: r2 ∧ isPyWS c2 = true) :
    splitWS (w ++ rest) = w :: splitWS rest := by
  cases w with
  | nil => exact absurd rfl hw
  | cons c r =>
    have hc : isPyWS c = false := hnw c (by simp)
    have htw : (r ++ rest).takeWhile (fun ch => !isPyWS ch) = r := by
      rw [List.takeWhile_append]
      have hr : r.takeWhile (fun ch => !isPyWS ch) = r :=
        List.takeWhile_eq_self_iff.mpr
          (fun ch hch => by simp [hnw ch (by simp [hch])])
      rw [if_pos (by rw [hr])]
      rcases hrest with h | ⟨c2, r2, h, hc2⟩
      · simp [h]
      · simp [h, List.takeWhile_cons, hc2]
    have hstep : splitWSStep ((c :: r) ++ rest) =
        some (c :: r, (c :: r).length) := by
      simp only [List.cons_append, splitWSStep, hc, Bool.false_eq_true,
        if_false, htw]
    rw [show splitWS ((c :: r) ++ rest) = reScan splitWSStep 0 ((c :: r) ++ rest)
      from rfl, List.cons_append, reScan_cons_some (by simpa using hstep)]
    congr 1
    simp only [List.length_cons, Nat.add_sub_cancel]
    exact reScan_skip splitWSStep r rest

theorem splitWS_joinSpace :
    ∀ ws : List Str, (∀ w ∈ ws, w ≠ [] ∧ ∀ ch ∈ w, isPyWS ch = false) →
      splitWS (joinSpace ws) = ws := by
  intro ws
  induction ws with
  | nil => intro _; rfl
  | cons w ws ih =>
    intro h
    obtain ⟨hw, hnw⟩ := h w (by simp)
    cases ws with
    | nil =>
      rw [show joinSpace [w] = w from rfl]
      have := splitWS_word_head hw hnw [] (Or.inl rfl)
      simpa using this
    | cons w2 ws2 =>
      rw [show joinSpace (w :: w2 :: ws2) = w ++ ' ' :: joinSpace (w2 :: ws2)
        from rfl]
      rw [splitWS_word_head hw hnw (' ' :: joinSpace (w2 :: ws2))
        (Or.inr ⟨' ', joinSpace (w2 :: ws2), rfl, by decide⟩)]
      congr 1
      rw [show splitWS (' ' :: joinSpace (w2 :: ws2)) =
        reScan splitWSStep 0 (' ' :: joinSpace (w2 :: ws2)) from rfl]
      rw [reScan_cons_none
        (by simp [splitWSStep, show isPyWS ' ' = true from by decide])]
      exact ih (fun v hv => h v (by simp [hv]))

theorem ngramPhrases_mem {words : List Str} {minW maxW : Nat} {ph : Str}
    (h : ph ∈ ngramPhrases words minW maxW) :
    ∃ n i, ph = joinSpace ((words.drop i).take n) := by
  unfold ngramPhrases at h
  rw [List.mem_flatMap] at h
  obtain ⟨n, _, h2⟩ := h
  rw [List.mem_map] at h2
  obtain ⟨i, _, heq⟩ := h2
  exact ⟨n, i, heq.symm⟩

/-- Claim C9: for every input text and parameter choice, no phrase
returned by `find_key_phrases` contains a stop word or a token shorter
than 3 characters: every whitespace-separated token of every returned
phrase has length at least 3 and lies outside the stop-word set. -/
theorem C9_key_phrases_filtered (content : Str) (minW maxW topN : Nat) :
    ∀ p ∈ find_key_phrases content minW maxW topN,
      ∀ t ∈ splitWS p.1, 3 ≤ t.length ∧ t ∉ STOP_WORDS := by
  intro p hp t ht
  have hp2 : p ∈ tally (ngramPhrases (phraseWords content) minW maxW) :=
    mostCommon_subset hp
  have hph : p.1 ∈ ngramPhrases (phraseWords content) minW maxW :=
    tally_mem_fst hp2
  obtain ⟨n, i, heq⟩ := ngramPhrases_mem hph
  have hsub : ∀ w ∈ ((phraseWords content).drop i).take n,
      w ∈ phraseWords content := fun w hw =>
    List.drop_subset i _ (List.take_subset n _ hw)
  have hwin : ∀ w ∈ ((phraseWords content).drop i).take n,
      w ≠ [] ∧ ∀ ch ∈ w, isPyWS ch = false := by
    intro w hw
    have hw2 : w ∈ splitWS (cleanContent content) :=
      (List.mem_filter.mp (hsub w hw)).1
    exact splitWS_sound hw2
  have hsplit : splitWS p.1 = ((phraseWords content).drop i).take n := by
    rw [heq]
    exact splitWS_joinSpace _ hwin
  rw [hsplit] at ht
  have ht2 : t ∈ phraseWords content := hsub t ht
  have hcond := (List.mem_filter.mp ht2).2
  rw [Bool.and_eq_true, decide_eq_true_eq, decide_eq_true_eq] at hcond
  exact ⟨hcond.2, hcond.1⟩

/-- Witness for C9: the top phrase of a concrete document, and its first
token, satisfy the stop-word and length conditions. -/
theorem C9_key_phrases_filtered_witness :
    3 ≤ ("alpha".toList).length ∧ ("alpha".toList) ∉ STOP_WORDS :=
  C9_key_phrases_filtered ("alpha beta alpha beta".toList) 2 2 5
    (("alpha beta".toList, 2)) (by decide) ("alpha".toList) (by decide)
